import Mathlib

/-!
Verification of the pivy PIV client library specification against its
interface (`src/piv.h`). The repository ships only the public header:
enumerations, status words and instruction bytes below are transcribed
from `piv.h`; the behaviour of each operation is modelled from the
specification document, as noted on each definition.

Bytes are modelled as `Nat` (values below 256 where the code guarantees
it); byte strings as `List Nat`; fallible operations return
`Except ErrKind`.
-/

namespace Pivy

/-- Error kinds carried through the cause-chain, from spec section 7. -/
inductive ErrKind where
  | IOError
  | APDUError (sw : Nat)
  | NotFound
  | NotSupported
  | Permission
  | InvalidData
  | Argument
  | MinRetries
  | DeviceOutOfMemory
  | ResetConditions
  | KeyAuth
  | Duplicate
deriving DecidableEq, Repr

deriving instance DecidableEq for Except

/-- From `enum iso_class` in piv.h: plain ISO class byte. -/
def CLA_ISO : Nat := 0x00

/-- From `enum iso_class` in piv.h: class byte carrying the chain bit. -/
def CLA_CHAIN : Nat := 0x10

/-- From `enum iso_ins` in piv.h. -/
def INS_VERIFY : Nat := 0x20

/-- From `enum iso_sw` in piv.h. -/
def SW_NO_ERROR : Nat := 0x9000

/-- From `enum iso_sw` in piv.h. -/
def SW_INCORRECT_PIN : Nat := 0x63C0

/-- From `enum iso_sw` in piv.h. -/
def SW_FILE_INVALID : Nat := 0x6983

/-- From `enum iso_sw` in piv.h. -/
def SW_SECURITY_STATUS_NOT_SATISFIED : Nat := 0x6982

/-! ## Byte-string primitives

The TLV/wire codec of the library (spec section 4.1) reads 8-bit and
32-bit big-endian integers and length-prefixed byte strings from a
cursor; writers are symmetric. -/

/-- Read one byte off the front of a byte string. -/
def readU8 : List Nat → Option (Nat × List Nat)
  | [] => none
  | b :: r => if b < 256 then some (b, r) else none

/-- Read exactly `n` bytes off the front of a byte string. -/
def readBytesN : Nat → List Nat → Option (List Nat × List Nat)
  | 0, l => some ([], l)
  | _ + 1, [] => none
  | n + 1, b :: r =>
    match readBytesN n r with
    | some (s, rest) => some (b :: s, rest)
    | none => none

/-- Read a 32-bit big-endian integer (SSH string length prefix). -/
def readU32 : List Nat → Option (Nat × List Nat)
  | b0 :: b1 :: b2 :: b3 :: r =>
    if b0 < 256 ∧ b1 < 256 ∧ b2 < 256 ∧ b3 < 256 then
      some (b0 * 16777216 + b1 * 65536 + b2 * 256 + b3, r)
    else none
  | _ => none

/-- Write a 32-bit big-endian integer. -/
def putU32 (n : Nat) : List Nat :=
  [n / 16777216 % 256, n / 65536 % 256, n / 256 % 256, n % 256]

/-- Write an SSH wire-format string: 32-bit big-endian length, then bytes. -/
def putSshString (s : List Nat) : List Nat := putU32 s.length ++ s

/-- Read an SSH wire-format string. -/
def readSshString (l : List Nat) : Option (List Nat × List Nat) :=
  match readU32 l with
  | some (n, r) => readBytesN n r
  | none => none

theorem readU8_cons {b : Nat} (r : List Nat) (hb : b < 256) :
    readU8 (b :: r) = some (b, r) := by
  simp [readU8, hb]

theorem readU8_eq {l : List Nat} {b : Nat} {r : List Nat}
    (h : readU8 l = some (b, r)) : l = b :: r ∧ b < 256 := by
  cases l with
  | nil => simp [readU8] at h
  | cons x t =>
    by_cases hx : x < 256
    · simp [readU8, hx] at h
      exact ⟨by rw [h.1, h.2], h.1 ▸ hx⟩
    · simp [readU8, hx] at h

theorem readBytesN_append (s r : List Nat) :
    readBytesN s.length (s ++ r) = some (s, r) := by
  induction s with
  | nil => simp [readBytesN]
  | cons b t ih => simp [readBytesN, ih]

theorem readBytesN_eq {n : Nat} {l s r : List Nat}
    (h : readBytesN n l = some (s, r)) : l = s ++ r ∧ s.length = n := by
  induction n generalizing l s r with
  | zero =>
    simp [readBytesN] at h
    simp [h.1, h.2]
  | succ m ih =>
    cases l with
    | nil => simp [readBytesN] at h
    | cons b t =>
      simp only [readBytesN] at h
      cases hm : readBytesN m t with
      | none => rw [hm] at h; simp at h
      | some p =>
        obtain ⟨s0, rest⟩ := p
        rw [hm] at h
        simp at h
        obtain ⟨hs, hr⟩ := h
        obtain ⟨ht, hl⟩ := ih hm
        constructor
        · rw [← hs, ← hr, ht]; rfl
        · rw [← hs]; simp [hl]

theorem readU32_put (n : Nat) (r : List Nat) (hn : n < 4294967296) :
    readU32 (putU32 n ++ r) = some (n, r) := by
  have h0 : n / 16777216 % 256 < 256 := Nat.mod_lt _ (by norm_num)
  have h1 : n / 65536 % 256 < 256 := Nat.mod_lt _ (by norm_num)
  have h2 : n / 256 % 256 < 256 := Nat.mod_lt _ (by norm_num)
  have h3 : n % 256 < 256 := Nat.mod_lt _ (by norm_num)
  simp only [putU32, List.cons_append, List.nil_append, readU32]
  rw [if_pos ⟨h0, h1, h2, h3⟩]
  congr 2
  omega

theorem readU32_eq {l : List Nat} {n : Nat} {r : List Nat}
    (h : readU32 l = some (n, r)) :
    l = putU32 n ++ r ∧ n < 4294967296 := by
  match l with
  | [] => simp [readU32] at h
  | [_] => simp [readU32] at h
  | [_, _] => simp [readU32] at h
  | [_, _, _] => simp [readU32] at h
  | b0 :: b1 :: b2 :: b3 :: t =>
    simp only [readU32] at h
    by_cases hb : b0 < 256 ∧ b1 < 256 ∧ b2 < 256 ∧ b3 < 256
    · rw [if_pos hb] at h
      simp at h
      obtain ⟨hn, hr⟩ := h
      obtain ⟨h0, h1, h2, h3⟩ := hb
      constructor
      · rw [← hr]
        simp only [putU32, List.cons_append, List.nil_append]
        have e0 : n / 16777216 % 256 = b0 := by omega
        have e1 : n / 65536 % 256 = b1 := by omega
        have e2 : n / 256 % 256 = b2 := by omega
        have e3 : n % 256 = b3 := by omega
        rw [e0, e1, e2, e3]
      · omega
    · rw [if_neg hb] at h
      simp at h

theorem readSshString_put (s r : List Nat) (hs : s.length < 4294967296) :
    readSshString (putSshString s ++ r) = some (s, r) := by
  simp only [readSshString, putSshString, List.append_assoc]
  rw [readU32_put s.length (s ++ r) hs]
  exact readBytesN_append s r

theorem readSshString_eq {l s r : List Nat}
    (h : readSshString l = some (s, r)) :
    l = putSshString s ++ r ∧ s.length < 4294967296 := by
  simp only [readSshString] at h
  cases hu : readU32 l with
  | none => rw [hu] at h; simp at h
  | some p =>
    obtain ⟨n, r1⟩ := p
    rw [hu] at h
    obtain ⟨hl, hn⟩ := readU32_eq hu
    obtain ⟨hr1, hlen⟩ := readBytesN_eq h
    subst hl hr1 hlen
    exact ⟨by simp [putSshString], hn⟩

/-! ## Number/byte conversions and bit flipping -/

/-- Little-endian byte encoding of a natural number, with explicit
recursion fuel (always called with fuel at least the number itself). -/
def natToBytesLEAux : Nat → Nat → List Nat
  | 0, _ => []
  | _ + 1, 0 => []
  | fuel + 1, m + 1 => ((m + 1) % 256) :: natToBytesLEAux fuel ((m + 1) / 256)

/-- Little-endian byte encoding of a natural number (empty for 0). -/
def natToBytesLE (n : Nat) : List Nat := natToBytesLEAux n n

/-- Little-endian byte decoding of a natural number. -/
def bytesToNatLE : List Nat → Nat
  | [] => 0
  | b :: r => b + 256 * bytesToNatLE r

/-- A fixed-width little-endian byte encoding (used for nonces). -/
def natToBytesFixed : Nat → Nat → List Nat
  | 0, _ => []
  | n + 1, x => (x % 256) :: natToBytesFixed n (x / 256)

theorem natToBytesLEAux_eval (fuel : Nat) : ∀ n, n ≤ fuel →
    bytesToNatLE (natToBytesLEAux fuel n) = n := by
  induction fuel with
  | zero =>
    intro n hn
    have h0 : n = 0 := by omega
    subst h0
    simp [natToBytesLEAux, bytesToNatLE]
  | succ f ih =>
    intro n hn
    match n with
    | 0 => simp [natToBytesLEAux, bytesToNatLE]
    | m + 1 =>
      have hdiv : (m + 1) / 256 < m + 1 := Nat.div_lt_self (Nat.succ_pos m) (by norm_num)
      rw [natToBytesLEAux, bytesToNatLE, ih ((m + 1) / 256) (by omega)]
      omega

theorem bytesToNatLE_natToBytesLE (n : Nat) :
    bytesToNatLE (natToBytesLE n) = n :=
  natToBytesLEAux_eval n n (le_refl n)

theorem natToBytesLEAux_length_le (fuel : Nat) : ∀ n,
    (natToBytesLEAux fuel n).length ≤ n := by
  induction fuel with
  | zero =>
    intro n
    simp [natToBytesLEAux]
  | succ f ih =>
    intro n
    match n with
    | 0 => simp [natToBytesLEAux]
    | m + 1 =>
      have hdiv : (m + 1) / 256 < m + 1 := Nat.div_lt_self (Nat.succ_pos m) (by norm_num)
      have hrec := ih ((m + 1) / 256)
      rw [natToBytesLEAux]
      simp only [List.length_cons]
      omega

theorem natToBytesLE_length_le (n : Nat) : (natToBytesLE n).length ≤ n :=
  natToBytesLEAux_length_le n n

theorem natToBytesFixed_length (n x : Nat) : (natToBytesFixed n x).length = n := by
  induction n generalizing x with
  | zero => simp [natToBytesFixed]
  | succ m ih => simp [natToBytesFixed, ih]

/-- Flip bit `i` of a byte string: bit `i % 8` of byte `i / 8`. -/
def flipBit (i : Nat) (l : List Nat) : List Nat :=
  l.set (i / 8) (l.getD (i / 8) 0 ^^^ 2 ^ (i % 8))

theorem flipBit_length (i : Nat) (l : List Nat) :
    (flipBit i l).length = l.length := by
  simp [flipBit]

theorem flipBit_append_right (i : Nat) (a b : List Nat)
    (h : 8 * a.length ≤ i) :
    flipBit i (a ++ b) = a ++ flipBit (i - 8 * a.length) b := by
  have hdiv : (i - 8 * a.length) / 8 = i / 8 - a.length := by omega
  have hmod : (i - 8 * a.length) % 8 = i % 8 := by omega
  have hge : a.length ≤ i / 8 := by omega
  simp only [flipBit, hdiv, hmod]
  rw [List.getD_append_right a b _ _ hge, List.set_append_right _ _ hge]

/-! ## Idealized cryptographic primitives

The box's cryptography (spec sections 4.7 and 6) uses external
primitives: EC Diffie-Hellman, a SHA-512 KDF and an AEAD cipher.  They
are idealized here, keeping exactly the algebraic properties the spec
relies on: ECDH is commutative in the two key pairs, the KDF derives a
key and nonce from the shared secret, and the AEAD authenticates its
ciphertext so that decryption succeeds only on an exact re-encryption. -/

/-- Modelled from the spec: ASCII bytes of the cipher name
"chacha20-poly1305" (the default cipher for box versions greater or
equal to 2). -/
def cipherChacha : List Nat :=
  [99, 104, 97, 99, 104, 97, 50, 48, 45, 112, 111, 108, 121, 49, 51, 48, 53]

/-- Modelled from the spec: ASCII bytes of the cipher name "aes256-gcm". -/
def cipherAes256Gcm : List Nat :=
  [97, 101, 115, 50, 53, 54, 45, 103, 99, 109]

/-- Modelled from the spec: ASCII bytes of the KDF name "sha512"
(the default and only supported KDF). -/
def kdfSha512 : List Nat := [115, 104, 97, 53, 49, 50]

/-- The AEAD ciphers a box can name for seal/open. -/
def supportedCipher (c : List Nat) : Bool :=
  c = cipherChacha ∨ c = cipherAes256Gcm

/-- Modelled from the spec: the EC group of the recipient key pair,
idealized.  A private key is a scalar; the SSH wire form of its public
key is represented by the byte encoding of that scalar (standing for
the discrete logarithm of the point). -/
def pubKeyWire (d : Nat) : List Nat := natToBytesLE d

/-- Modelled from the spec: offline ECDH between a private scalar and a
public key in wire form, idealized as the product of the two discrete
logarithms (the X coordinate of the shared point).  This keeps the one
property the spec relies on: ECDH(a, pub b) = ECDH(b, pub a). -/
def ecdhCompute (priv : Nat) (pubw : List Nat) : Nat :=
  priv * bytesToNatLE pubw

/-- Modelled from the spec: the SHA-512 KDF applied over
len‖shared‖"piv-box", truncated to the cipher's key and nonce sizes,
idealized as an injective derivation of (key, nonce) from the shared
secret. -/
def kdfDerive (shared : Nat) : Nat × Nat := (shared, shared + 1)

/-- XOR-fold of a byte string (used by the idealized authenticator). -/
def byteXorFold (l : List Nat) : Nat := l.foldr (fun a b => a ^^^ b) 0

/-- Modelled from the spec: the AEAD authentication tag over a
plaintext, idealized as an XOR accumulator over the cipher name, key,
nonce and plaintext.  Any single bit flip in the authenticated data
changes the tag. -/
def aeadTag (cname : List Nat) (key nonce : Nat) (p : List Nat) : Nat :=
  byteXorFold cname ^^^ key % 256 ^^^ nonce % 256 ^^^ byteXorFold p

/-- Modelled from the spec: AEAD encryption; the ciphertext includes the
integrated authentication tag as its final byte. -/
def aeadEncrypt (cname : List Nat) (key nonce : Nat) (p : List Nat) : List Nat :=
  p ++ [aeadTag cname key nonce p]

/-- Modelled from the spec: AEAD decryption; verifies the integrated tag
and fails on any mismatch. -/
def aeadDecrypt (cname : List Nat) (key nonce : Nat) (c : List Nat) :
    Option (List Nat) :=
  match c.getLast? with
  | none => none
  | some t =>
    if t = aeadTag cname key nonce c.dropLast then some c.dropLast else none

theorem aeadDecrypt_encrypt (cname : List Nat) (key nonce : Nat) (p : List Nat) :
    aeadDecrypt cname key nonce (aeadEncrypt cname key nonce p) = some p := by
  simp [aeadDecrypt, aeadEncrypt, List.getLast?_concat, List.dropLast_concat]

theorem byteXorFold_set (l : List Nat) (j m : Nat) (hj : j < l.length) :
    byteXorFold (l.set j (l.getD j 0 ^^^ m)) = byteXorFold l ^^^ m := by
  induction l generalizing j with
  | nil => simp at hj
  | cons x t ih =>
    cases j with
    | zero =>
      simp only [List.getD_cons_zero, List.set_cons_zero, byteXorFold,
        List.foldr_cons]
      rw [Nat.xor_assoc, Nat.xor_comm m _, ← Nat.xor_assoc]
    | succ k =>
      simp only [List.getD_cons_succ, List.set_cons_succ, byteXorFold,
        List.foldr_cons]
      have hk : k < t.length := by simpa using hj
      have hik := ih k hk
      simp only [byteXorFold] at hik
      rw [hik, ← Nat.xor_assoc]

theorem xor_pow_ne_self (a b : Nat) : a ^^^ 2 ^ b ≠ a := by
  intro h
  have h2 : a ^^^ (a ^^^ 2 ^ b) = a ^^^ a := by rw [h]
  rw [← Nat.xor_assoc, Nat.xor_self, Nat.zero_xor] at h2
  have hpos : 0 < 2 ^ b := Nat.pos_pow_of_pos b (by norm_num)
  omega

/-- Flipping any single bit of an AEAD ciphertext makes decryption fail. -/
theorem aeadDecrypt_flip (cname : List Nat) (key nonce : Nat) (p : List Nat)
    (i : Nat) (hi : i < 8 * (aeadEncrypt cname key nonce p).length) :
    aeadDecrypt cname key nonce (flipBit i (aeadEncrypt cname key nonce p)) = none := by
  set t := aeadTag cname key nonce p with ht
  have hlen : (aeadEncrypt cname key nonce p).length = p.length + 1 := by
    simp [aeadEncrypt]
  have hj : i / 8 < p.length + 1 := by omega
  by_cases hcase : i / 8 < p.length
  · -- flip lands in the plaintext part of the ciphertext
    have hget : (p ++ [t]).getD (i / 8) 0 = p.getD (i / 8) 0 := by
      rw [List.getD_append _ _ _ _ hcase]
    have hset : flipBit i (p ++ [t]) =
        p.set (i / 8) (p.getD (i / 8) 0 ^^^ 2 ^ (i % 8)) ++ [t] := by
      simp only [flipBit, hget]
      rw [List.set_append_left _ _ hcase]
    rw [aeadEncrypt, ← ht, hset]
    set p' := p.set (i / 8) (p.getD (i / 8) 0 ^^^ 2 ^ (i % 8)) with hp'
    have hfold : byteXorFold p' = byteXorFold p ^^^ 2 ^ (i % 8) :=
      byteXorFold_set p (i / 8) (2 ^ (i % 8)) hcase
    have htagne : t ≠ aeadTag cname key nonce p' := by
      rw [ht]
      simp only [aeadTag, hfold, ← Nat.xor_assoc]
      intro hcontra
      exact xor_pow_ne_self _ (i % 8) hcontra.symm
    simp [aeadDecrypt, List.getLast?_concat, List.dropLast_concat, htagne]
  · -- flip lands in the tag byte
    have hj8 : i / 8 = p.length := by omega
    have hget : (p ++ [t]).getD (i / 8) 0 = t := by
      rw [List.getD_append_right _ _ _ _ (by omega), hj8]
      simp
    have hset : flipBit i (p ++ [t]) = p ++ [t ^^^ 2 ^ (i % 8)] := by
      simp only [flipBit, hget]
      rw [List.set_append_right _ _ (by omega), hj8]
      simp
    rw [aeadEncrypt, ← ht, hset]
    have hne : t ^^^ 2 ^ (i % 8) ≠ aeadTag cname key nonce p :=
      ht ▸ xor_pow_ne_self t (i % 8)
    simp [aeadDecrypt, List.getLast?_concat, List.dropLast_concat, hne]

/-! ## ECDH box (spec sections 3 and 4.7)

`struct piv_ecdh_box` is opaque in piv.h; its fields are modelled from
the spec's data model: version, optional (guid, slot) binding, cipher
and KDF names, recipient and ephemeral public keys in SSH wire form,
nonce, ciphertext (with integrated tag) and a transient plaintext. -/

structure piv_ecdh_box where
  version : Nat
  guidslot : Option (List Nat × Nat)
  cipher : List Nat
  kdf : List Nat
  pub : List Nat
  ephem : List Nat
  nonce : List Nat
  enc : List Nat
  plaintext : Option (List Nat)
deriving DecidableEq, Repr

/-- Modelled from the spec: a fresh box: current version 3, default
cipher chacha20-poly1305, default KDF sha512, no binding, no data. -/
def piv_box_new : piv_ecdh_box :=
  { version := 3, guidslot := none, cipher := cipherChacha, kdf := kdfSha512,
    pub := [], ephem := [], nonce := [], enc := [], plaintext := none }

/-- Modelled from the spec: `piv_box_set_data` stores the plaintext. -/
def piv_box_set_data (b : piv_ecdh_box) (d : List Nat) : piv_ecdh_box :=
  { b with plaintext := some d }

/-- The flags value for an optional guid+slot binding. -/
def flagsOfGs : Option (List Nat × Nat) → Nat
  | some _ => 1
  | none => 0

/-- The flags byte of the serialization: bit 0 = has guid+slot. -/
def boxFlags (b : piv_ecdh_box) : Nat := flagsOfGs b.guidslot

/-- The optional guid+slot segment of the serialization. -/
def putGuidSlot : Option (List Nat × Nat) → List Nat
  | some (g, sl) => g ++ [sl]
  | none => []

/-- Modelled from the spec: `piv_box_to_binary` serialization: magic
0xB0 0xC5, version byte, flags byte, optional 16-byte guid and slot
byte, then SSH wire-format strings for cipher name, KDF name, recipient
public key, ephemeral public key, nonce and ciphertext. -/
def piv_box_to_binary (b : piv_ecdh_box) : List Nat :=
  [0xB0, 0xC5] ++ [b.version] ++ [boxFlags b] ++ putGuidSlot b.guidslot ++
    putSshString b.cipher ++ putSshString b.kdf ++ putSshString b.pub ++
    putSshString b.ephem ++ putSshString b.nonce ++ putSshString b.enc

/-- Parse the optional guid+slot segment according to the flags byte;
flag values other than 0 and 1 are rejected. -/
def parseGuidSlot : Nat → List Nat → Option (Option (List Nat × Nat) × List Nat)
  | 0, r => some (none, r)
  | 1, r =>
    match readBytesN 16 r with
    | some (g, r1) =>
      match readU8 r1 with
      | some (sl, r2) => some (some (g, sl), r2)
      | none => none
    | none => none
  | _ + 2, _ => none

/-- Modelled from the spec: the box parser.  Reads the serialization
fields in order; versions 1 through 3 are accepted. -/
def parseBox (l : List Nat) : Option (piv_ecdh_box × List Nat) := do
  let (mag, r0) ← readBytesN 2 l
  let (ver, r1) ← readU8 r0
  let (fl, r2) ← readU8 r1
  let (gs, r3) ← parseGuidSlot fl r2
  let (cname, r4) ← readSshString r3
  let (kname, r5) ← readSshString r4
  let (pubw, r6) ← readSshString r5
  let (ephw, r7) ← readSshString r6
  let (nonb, r8) ← readSshString r7
  let (encb, r9) ← readSshString r8
  if mag = [0xB0, 0xC5] ∧ 1 ≤ ver ∧ ver ≤ 3 then
    some (⟨ver, gs, cname, kname, pubw, ephw, nonb, encb, none⟩, r9)
  else
    none

/-- Modelled from the spec: `piv_box_from_binary` parses a byte string
that holds exactly one box; failures are InvalidData. -/
def piv_box_from_binary (l : List Nat) : Except ErrKind piv_ecdh_box :=
  match parseBox l with
  | some (b, []) => .ok b
  | _ => .error .InvalidData

/-- Well-formedness of a box as constructed by the library: version in
range, guid of exactly 16 bytes with an 8-bit slot when present, and
field lengths representable in the 32-bit SSH string length. -/
def boxWF (b : piv_ecdh_box) : Prop :=
  1 ≤ b.version ∧ b.version ≤ 3 ∧
  (match b.guidslot with
   | some (g, sl) => g.length = 16 ∧ sl < 256
   | none => True) ∧
  b.cipher.length < 4294967296 ∧ b.kdf.length < 4294967296 ∧
  b.pub.length < 4294967296 ∧ b.ephem.length < 4294967296 ∧
  b.nonce.length < 4294967296 ∧ b.enc.length < 4294967296

theorem parseGuidSlot_put (gs : Option (List Nat × Nat)) (r : List Nat)
    (hwf : match gs with
           | some (g, sl) => g.length = 16 ∧ sl < 256
           | none => True) :
    parseGuidSlot (flagsOfGs gs) (putGuidSlot gs ++ r) = some (gs, r) := by
  match gs with
  | none => simp [parseGuidSlot, putGuidSlot, flagsOfGs]
  | some (g, sl) =>
    obtain ⟨hg, hsl⟩ := hwf
    simp only [flagsOfGs, putGuidSlot, parseGuidSlot, List.append_assoc,
      List.cons_append, List.nil_append]
    rw [← hg, readBytesN_append g (sl :: r)]
    dsimp only
    rw [readU8_cons r hsl]

theorem parseGuidSlot_eq {fl : Nat} {l : List Nat}
    {gs : Option (List Nat × Nat)} {r : List Nat}
    (h : parseGuidSlot fl l = some (gs, r)) :
    l = putGuidSlot gs ++ r ∧ fl = flagsOfGs gs ∧
      (match gs with
       | some (g, sl) => g.length = 16 ∧ sl < 256
       | none => True) := by
  match fl with
  | 0 =>
    simp only [parseGuidSlot] at h
    obtain ⟨hgs, hr⟩ := Prod.mk.injEq .. ▸ (Option.some.injEq .. ▸ h)
    subst hgs hr
    simp [putGuidSlot, flagsOfGs]
  | 1 =>
    simp only [parseGuidSlot] at h
    cases hb : readBytesN 16 l with
    | none => rw [hb] at h; simp at h
    | some pb =>
      obtain ⟨g, r1⟩ := pb
      rw [hb] at h
      dsimp only at h
      cases hu : readU8 r1 with
      | none => rw [hu] at h; simp at h
      | some pu =>
        obtain ⟨sl, r2⟩ := pu
        rw [hu] at h
        simp only [Option.some.injEq, Prod.mk.injEq] at h
        obtain ⟨hgs, hr⟩ := h
        subst hgs hr
        obtain ⟨hl, hlen⟩ := readBytesN_eq hb
        obtain ⟨hr1, hsl⟩ := readU8_eq hu
        subst hl hr1
        simp [putGuidSlot, flagsOfGs, hlen, hsl]
  | _ + 2 => simp [parseGuidSlot] at h

theorem parseBox_put (b : piv_ecdh_box) (rest : List Nat) (hwf : boxWF b) :
    parseBox (piv_box_to_binary b ++ rest) =
      some ({b with plaintext := none}, rest) := by
  obtain ⟨hv1, hv3, hgs, hc, hk, hp, he, hn, henc⟩ := hwf
  have hver : b.version < 256 := by omega
  have hfl : flagsOfGs b.guidslot < 256 := by
    cases b.guidslot <;> simp [flagsOfGs]
  have h1 : ∀ r : List Nat, readBytesN 2 (0xB0 :: 0xC5 :: r) =
      some ([0xB0, 0xC5], r) := fun r => readBytesN_append [0xB0, 0xC5] r
  have h2 : ∀ r : List Nat, readU8 (b.version :: r) = some (b.version, r) :=
    fun r => readU8_cons r hver
  have h3 : ∀ r : List Nat, readU8 (flagsOfGs b.guidslot :: r) =
      some (flagsOfGs b.guidslot, r) := fun r => readU8_cons r hfl
  have h4 : ∀ r : List Nat, parseGuidSlot (flagsOfGs b.guidslot)
      (putGuidSlot b.guidslot ++ r) = some (b.guidslot, r) :=
    fun r => parseGuidSlot_put _ r hgs
  have h5 : ∀ r : List Nat, readSshString (putSshString b.cipher ++ r) =
      some (b.cipher, r) := fun r => readSshString_put _ r hc
  have h6 : ∀ r : List Nat, readSshString (putSshString b.kdf ++ r) =
      some (b.kdf, r) := fun r => readSshString_put _ r hk
  have h7 : ∀ r : List Nat, readSshString (putSshString b.pub ++ r) =
      some (b.pub, r) := fun r => readSshString_put _ r hp
  have h8 : ∀ r : List Nat, readSshString (putSshString b.ephem ++ r) =
      some (b.ephem, r) := fun r => readSshString_put _ r he
  have h9 : ∀ r : List Nat, readSshString (putSshString b.nonce ++ r) =
      some (b.nonce, r) := fun r => readSshString_put _ r hn
  have h10 : ∀ r : List Nat, readSshString (putSshString b.enc ++ r) =
      some (b.enc, r) := fun r => readSshString_put _ r henc
  simp only [parseBox, piv_box_to_binary, boxFlags, List.append_assoc,
    List.cons_append, List.nil_append, Option.bind_eq_bind,
    h1, h2, h3, h4, h5, h6, h7, h8, h9, h10, Option.some_bind]
  rw [if_pos ⟨trivial, hv1, hv3⟩]

theorem parseBox_eq {l : List Nat} {b : piv_ecdh_box} {rest : List Nat}
    (h : parseBox l = some (b, rest)) :
    l = piv_box_to_binary b ++ rest ∧ b.plaintext = none := by
  simp only [parseBox, Option.bind_eq_bind, Option.bind_eq_some] at h
  obtain ⟨⟨mag, r0⟩, hmag, h⟩ := h
  obtain ⟨⟨ver, r1⟩, hver, h⟩ := h
  obtain ⟨⟨fl, r2⟩, hfl, h⟩ := h
  obtain ⟨⟨gs, r3⟩, hgs, h⟩ := h
  obtain ⟨⟨cname, r4⟩, hcn, h⟩ := h
  obtain ⟨⟨kname, r5⟩, hkn, h⟩ := h
  obtain ⟨⟨pubw, r6⟩, hpw, h⟩ := h
  obtain ⟨⟨ephw, r7⟩, hew, h⟩ := h
  obtain ⟨⟨nonb, r8⟩, hnb, h⟩ := h
  obtain ⟨⟨encb, r9⟩, heb, h⟩ := h
  dsimp only at hver hfl hgs hcn hkn hpw hew hnb heb h
  by_cases hcond : mag = [0xB0, 0xC5] ∧ 1 ≤ ver ∧ ver ≤ 3
  · rw [if_pos hcond] at h
    simp only [Option.some.injEq, Prod.mk.injEq] at h
    obtain ⟨hb, hrest⟩ := h
    obtain ⟨hl0, _⟩ := readBytesN_eq hmag
    obtain ⟨hl1, hv256⟩ := readU8_eq hver
    obtain ⟨hl2, hf256⟩ := readU8_eq hfl
    obtain ⟨hl3, hflval, hgswf⟩ := parseGuidSlot_eq hgs
    obtain ⟨hl4, _⟩ := readSshString_eq hcn
    obtain ⟨hl5, _⟩ := readSshString_eq hkn
    obtain ⟨hl6, _⟩ := readSshString_eq hpw
    obtain ⟨hl7, _⟩ := readSshString_eq hew
    obtain ⟨hl8, _⟩ := readSshString_eq hnb
    obtain ⟨hl9, _⟩ := readSshString_eq heb
    subst hb hrest
    constructor
    · rw [hl0, hcond.1, hl1, hl2, hl3, hflval, hl4, hl5, hl6, hl7, hl8, hl9]
      simp [piv_box_to_binary, boxFlags, flagsOfGs, List.append_assoc]
    · rfl
  · rw [if_neg hcond] at h
    simp at h

/-- Modelled from the spec: `piv_box_seal_offline`.  The ephemeral key
pair the C function generates internally from fresh randomness is an
explicit `ephPriv` argument here.  Computes the shared secret by
offline ECDH against the recipient public key, derives key and nonce
by the box's KDF, encrypts the plaintext under the box's AEAD cipher,
stores the recipient and ephemeral public keys, nonce and ciphertext,
and clears the plaintext. -/
def piv_box_seal_offline (ephPriv : Nat) (pubw : List Nat)
    (b : piv_ecdh_box) : Except ErrKind piv_ecdh_box :=
  match b.plaintext with
  | none => .error .Argument
  | some p =>
    if supportedCipher b.cipher = false then .error .Argument
    else if b.kdf ≠ kdfSha512 then .error .Argument
    else
      let shared := ecdhCompute ephPriv pubw
      let kn := kdfDerive shared
      .ok { b with pub := pubw
                 , ephem := pubKeyWire ephPriv
                 , nonce := natToBytesFixed 12 kn.2
                 , enc := aeadEncrypt b.cipher kn.1 kn.2 p
                 , plaintext := none }

/-- Modelled from the spec: `piv_box_open_offline`.  Regenerates the
shared secret by ECDH between the box's ephemeral public key and the
recipient's private key, re-derives key and nonce, decrypts and
verifies the tag; on any decryption failure reports InvalidData. -/
def piv_box_open_offline (priv : Nat) (b : piv_ecdh_box) :
    Except ErrKind piv_ecdh_box :=
  if supportedCipher b.cipher = false then .error .Argument
  else if b.kdf ≠ kdfSha512 then .error .Argument
  else
    let shared := ecdhCompute priv b.ephem
    let kn := kdfDerive shared
    match aeadDecrypt b.cipher kn.1 kn.2 b.enc with
    | none => .error .InvalidData
    | some p => .ok { b with plaintext := some p }

/-- Modelled from the spec: `piv_box_take_data` hands out the plaintext
of an opened box. -/
def piv_box_take_data (b : piv_ecdh_box) : Except ErrKind (List Nat) :=
  match b.plaintext with
  | none => .error .Argument
  | some p => .ok p

/-! ## APDUs (piv.h low-level APDU access, spec sections 4.2 and 4.3) -/

/-- `struct apdu` from the spec's data model: class, instruction, P1,
P2, command data; on completion a reply byte string and a 16-bit
status word. -/
structure apdu where
  cls : Nat
  ins : Nat
  p1 : Nat
  p2 : Nat
  cmd : List Nat
  reply : List Nat
  sw : Nat
deriving DecidableEq, Repr

/-- Modelled from the spec: `piv_apdu_make` creates an APDU with the
given header and no command data; it is not yet completed, so the
status word reads as 0. -/
def piv_apdu_make (cls ins p1 p2 : Nat) : apdu :=
  { cls := cls, ins := ins, p1 := p1, p2 := p2, cmd := [], reply := [], sw := 0 }

/-- Modelled from the spec: `piv_apdu_set_cmd` sets the command data. -/
def piv_apdu_set_cmd (a : apdu) (d : List Nat) : apdu := { a with cmd := d }

/-- From piv.h: `piv_apdu_sw` retrieves the status word from a completed
APDU, and returns 0 if the APDU has not been completed. -/
def piv_apdu_sw (a : apdu) : Nat := a.sw

/-- Modelled from the spec: `piv_apdu_transceive` — one exchange through
the transport facade.  `raw` is the byte string the card transmits
back: its last two bytes are the status word, the remainder the reply
data.  A reply too short to hold a status word is an IO failure. -/
def piv_apdu_transceive (a : apdu) (raw : List Nat) : Except ErrKind apdu :=
  if raw.length < 2 then .error .IOError
  else .ok { a with
    reply := raw.take (raw.length - 2),
    sw := 256 * raw.getD (raw.length - 2) 0 + raw.getD (raw.length - 1) 0 }

/-- Modelled from the spec: the command fragments that
`piv_apdu_transceive_chain` sends in short-APDU mode when the command
data exceeds 255 bytes: chunks of at most 255 bytes, all but the last
with class CLA_CHAIN (0x10), the last with CLA_ISO (0x00), each with
the original instruction, P1 and P2. -/
def chainFragments (ins p1 p2 : Nat) (d : List Nat) : List apdu :=
  if d.length ≤ 255 then [piv_apdu_set_cmd (piv_apdu_make CLA_ISO ins p1 p2) d]
  else piv_apdu_set_cmd (piv_apdu_make CLA_CHAIN ins p1 p2) (d.take 255) ::
    chainFragments ins p1 p2 (d.drop 255)
termination_by d.length
decreasing_by simp; omega

/-! ## PIN verification (spec section 4.6, piv.h `piv_verify_pin`) -/

/-- Masks the low nibble off a status word, as the C code does with
`sw & 0xFFF0` to recognize the 0x63Cx family. -/
def isIncorrectPinSW (sw : Nat) : Bool := Nat.land sw 0xFFF0 == SW_INCORRECT_PIN

/-- The retries count in the low nibble of a 0x63Cx status word. -/
def swRetryCount (sw : Nat) : Nat := Nat.land sw 0xF

/-- A card's scripted answers to the VERIFY exchanges: the status word
for a VERIFY with empty data (the probe) and the status word for a
VERIFY carrying the padded PIN. -/
structure VerifyCard where
  probeSW : Nat
  pinSW : Nat
deriving DecidableEq, Repr

/-- The outcome of a `piv_verify_pin` call: the result, the APDUs
transmitted in order, and the value written through the caller's
`retries` pointer (none when nothing was written). -/
structure VerifyOutcome where
  result : Except ErrKind Unit
  sent : List apdu
  retriesOut : Option Nat
deriving DecidableEq, Repr

/-- A VERIFY APDU for PIN reference `ty` carrying data `d`. -/
def verifyApdu (ty : Nat) (d : List Nat) : apdu :=
  piv_apdu_set_cmd (piv_apdu_make CLA_ISO INS_VERIFY 0 ty) d

/-- Modelled from the spec: the tail of `piv_verify_pin` that transmits
the VERIFY carrying the PIN padded with 0xFF to 8 bytes and decodes
the status word: 0x9000 success; 0x63Cx wrong PIN (permission denied,
the low nibble written to a non-NULL `retries`); 0x6982/0x6983
security/permission failures; anything else an APDU error. -/
def verifySendPin (ty : Nat) (pin : List Nat) (retries : Option Nat)
    (card : VerifyCard) (probes : List apdu) : VerifyOutcome :=
  let sent := probes ++ [verifyApdu ty (pin ++ List.replicate (8 - pin.length) 0xFF)]
  let sw := card.pinSW
  if sw = SW_NO_ERROR then ⟨.ok (), sent, none⟩
  else if isIncorrectPinSW sw then
    ⟨.error .Permission, sent,
      match retries with
      | some _ => some (swRetryCount sw)
      | none => none⟩
  else if sw = SW_FILE_INVALID ∨ sw = SW_SECURITY_STATUS_NOT_SATISFIED then
    ⟨.error .Permission, sent, none⟩
  else ⟨.error (.APDUError sw), sent, none⟩

/-- Modelled from the spec: `piv_verify_pin(type, pin, retries, canskip)`.
A zero-length or over-8-byte PIN is an Argument error before any
transmit.  When `canskip` is set or a retries floor is given, a VERIFY
with empty data probes the card first: status 0x9000 with `canskip`
returns success without sending the PIN; a 0x63Cx probe answer whose
low nibble is below the caller's floor returns MinRetries without
sending the PIN.  Otherwise the padded PIN is sent. -/
def piv_verify_pin (ty : Nat) (pin : List Nat) (retries : Option Nat)
    (canskip : Bool) (card : VerifyCard) : VerifyOutcome :=
  if pin.length = 0 ∨ pin.length > 8 then ⟨.error .Argument, [], none⟩
  else if canskip || retries.isSome then
    let sw := card.probeSW
    if canskip && (sw == SW_NO_ERROR) then ⟨.ok (), [verifyApdu ty []], none⟩
    else if isIncorrectPinSW sw &&
        (match retries with
         | some r => decide (swRetryCount sw < r)
         | none => false) then
      ⟨.error .MinRetries, [verifyApdu ty []], none⟩
    else verifySendPin ty pin retries card [verifyApdu ty []]
  else verifySendPin ty pin retries card []

/-! ## Token discovery by GUID prefix (piv.h `piv_find`, spec section 4.4) -/

/-- The per-reader data `piv_find` probes: the reader name and the
16-byte GUID read from the CHUID. -/
structure piv_token_info where
  rdrname : List Nat
  guid : List Nat
deriving DecidableEq, Repr

/-- Whether a token's GUID begins with the given prefix. -/
def guidMatch (pfx : List Nat) (t : piv_token_info) : Bool :=
  pfx.isPrefixOf t.guid

/-- Modelled from the spec: the reader scan of `piv_find`.  Iterates the
readers, remembering the first token whose GUID begins with the
prefix; a second match reports Duplicate; no match reports NotFound. -/
def findLoop (pfx : List Nat) : List piv_token_info → Option piv_token_info →
    Except ErrKind piv_token_info
  | [], none => .error .NotFound
  | [], some t => .ok t
  | t :: rest, acc =>
    if guidMatch pfx t then
      match acc with
      | some _ => .error .Duplicate
      | none => findLoop pfx rest (some t)
    else findLoop pfx rest acc

/-- Modelled from the spec: `piv_find` over the reachable tokens. -/
def piv_find (tokens : List piv_token_info) (pfx : List Nat) :
    Except ErrKind piv_token_info :=
  findLoop pfx tokens none

/-! ## Bulk certificate read (piv.h `piv_read_all_certs`, spec 4.5) -/

/-- The fixed slot enumeration `piv_read_all_certs` iterates: the slots
with PIV certificate tags in piv.h (9A, 9C, 9D, 9E and the retired
slots 82 through 95; 9B has no certificate object). -/
def slotEnum : List Nat :=
  [0x9A, 0x9C, 0x9D, 0x9E] ++ (List.range 20).map (fun k => 0x82 + k)

/-- Whether a per-slot read outcome lets `piv_read_all_certs` continue:
success, NotFound and NotSupported do; any other error does not. -/
def certReadTolerable (r : Except ErrKind Unit) : Bool :=
  match r with
  | .ok _ => true
  | .error .NotFound => true
  | .error .NotSupported => true
  | .error _ => false

/-- Modelled from the spec: the slot loop of `piv_read_all_certs` over
the per-slot outcomes `res`; returns the overall result and the list
of slots actually tried, in order. -/
def readAllLoop (res : Nat → Except ErrKind Unit) :
    List Nat → Except ErrKind Unit × List Nat
  | [] => (.ok (), [])
  | s :: rest =>
    if certReadTolerable (res s) then
      let t := readAllLoop res rest
      (t.1, s :: t.2)
    else
      match res s with
      | .ok _ => (.ok (), [s])
      | .error k => (.error k, [s])

/-- Modelled from the spec: `piv_read_all_certs`, with `res` giving each
slot's `piv_read_cert` outcome. -/
def piv_read_all_certs (res : Nat → Except ErrKind Unit) :
    Except ErrKind Unit × List Nat :=
  readAllLoop res slotEnum

/-! ## Slot registry (piv.h `piv_get_slot` / `piv_force_slot`, spec 4.5) -/

/-- A slot descriptor: slot id and algorithm id (certificate contents
are irrelevant to the registry's membership behaviour). -/
structure piv_slot where
  slotid : Nat
  alg : Nat
deriving DecidableEq, Repr

/-- The registry events that can touch a token's slot list. -/
inductive SlotEvent where
  | readCertOk (id alg : Nat)
  | readCertFail (id : Nat)
  | forceSlot (id alg : Nat)
deriving DecidableEq, Repr

/-- Look up an existing slot by id, as `piv_get_slot` does. -/
def piv_get_slot (slots : List piv_slot) (id : Nat) : Option piv_slot :=
  slots.find? (fun s => s.slotid == id)

/-- Modelled from the spec: both a successful certificate read and a
forced slot reuse an existing slot with the same id or add a new one. -/
def upsertSlot (slots : List piv_slot) (id alg : Nat) : List piv_slot :=
  if (piv_get_slot slots id).isSome then
    slots.map (fun s => if s.slotid == id then { s with alg := alg } else s)
  else
    ⟨id, alg⟩ :: slots

/-- Modelled from the spec: the effect of one registry event on the slot
list: a successful `piv_read_cert` or a `piv_force_slot` adds (or
updates) the slot; a failed read leaves the list untouched. -/
def applySlotEvent (slots : List piv_slot) : SlotEvent → List piv_slot
  | .readCertOk id alg => upsertSlot slots id alg
  | .readCertFail _ => slots
  | .forceSlot id alg => upsertSlot slots id alg

/-- Run a sequence of registry events on an initially empty token. -/
def runSlotEvents (evs : List SlotEvent) : List piv_slot :=
  evs.foldl applySlotEvent []

/-- Whether an event adds slot `id`: a successful read or a force of
that slot id. -/
def eventAdds (id : Nat) : SlotEvent → Bool
  | .readCertOk i _ => i == id
  | .readCertFail _ => false
  | .forceSlot i _ => i == id

/-! ## Helper lemmas -/

theorem chainFragments_ne_nil (ins p1 p2 : Nat) (d : List Nat) :
    chainFragments ins p1 p2 d ≠ [] := by
  rw [chainFragments]
  split <;> simp

theorem chainFragments_flatten (ins p1 p2 : Nat) (d : List Nat) :
    ((chainFragments ins p1 p2 d).map (fun a => a.cmd)).flatten = d := by
  induction d using chainFragments.induct ins p1 p2 with
  | case1 d h =>
    rw [chainFragments, if_pos h]
    simp [piv_apdu_set_cmd, piv_apdu_make]
  | case2 d h ih =>
    rw [chainFragments, if_neg h]
    simp [piv_apdu_set_cmd, piv_apdu_make, ih]

theorem chainFragments_mem (ins p1 p2 : Nat) (d : List Nat) (a : apdu)
    (ha : a ∈ chainFragments ins p1 p2 d) :
    a.cmd.length ≤ 255 ∧ a.ins = ins ∧ a.p1 = p1 ∧ a.p2 = p2 := by
  induction d using chainFragments.induct ins p1 p2 with
  | case1 d h =>
    rw [chainFragments, if_pos h] at ha
    simp at ha
    subst ha
    simp [piv_apdu_set_cmd, piv_apdu_make, h]
  | case2 d h ih =>
    rw [chainFragments, if_neg h] at ha
    simp at ha
    cases ha with
    | inl ha =>
      subst ha
      simp [piv_apdu_set_cmd, piv_apdu_make]
    | inr ha => exact ih ha

theorem chainFragments_cls (ins p1 p2 : Nat) (d : List Nat) (k : Nat)
    (hk : k < (chainFragments ins p1 p2 d).length) :
    ((chainFragments ins p1 p2 d).getD k (piv_apdu_make 0 0 0 0)).cls =
      if k + 1 = (chainFragments ins p1 p2 d).length then CLA_ISO
      else CLA_CHAIN := by
  induction d using chainFragments.induct ins p1 p2 generalizing k with
  | case1 d h =>
    rw [chainFragments, if_pos h] at hk ⊢
    simp at hk
    subst hk
    simp [piv_apdu_set_cmd, piv_apdu_make]
  | case2 d h ih =>
    rw [chainFragments, if_neg h] at hk ⊢
    have hnn := chainFragments_ne_nil ins p1 p2 (d.drop 255)
    have hlen : 1 ≤ (chainFragments ins p1 p2 (d.drop 255)).length := by
      cases hc : chainFragments ins p1 p2 (d.drop 255) with
      | nil => exact absurd hc hnn
      | cons x t => simp
    cases k with
    | zero =>
      have hne : 0 + 1 ≠ (piv_apdu_set_cmd (piv_apdu_make CLA_CHAIN ins p1 p2)
          (d.take 255) :: chainFragments ins p1 p2 (d.drop 255)).length := by
        simp only [List.length_cons]
        omega
      rw [if_neg hne]
      simp [piv_apdu_set_cmd, piv_apdu_make]
    | succ m =>
      simp only [List.getD_cons_succ, List.length_cons] at hk ⊢
      have hm : m < (chainFragments ins p1 p2 (d.drop 255)).length := by omega
      rw [ih m hm]
      by_cases he : m + 1 = (chainFragments ins p1 p2 (d.drop 255)).length
      · rw [if_pos he, if_pos (by omega)]
      · rw [if_neg he, if_neg (by omega)]

theorem verifySendPin_sent (ty : Nat) (pin : List Nat) (retries : Option Nat)
    (card : VerifyCard) (probes : List apdu) :
    (verifySendPin ty pin retries card probes).sent =
      probes ++ [verifyApdu ty (pin ++ List.replicate (8 - pin.length) 0xFF)] := by
  unfold verifySendPin
  by_cases h1 : card.pinSW = SW_NO_ERROR
  · simp [h1]
  · by_cases h2 : isIncorrectPinSW card.pinSW
    · simp [h1, h2]
    · by_cases h3 : card.pinSW = SW_FILE_INVALID ∨
          card.pinSW = SW_SECURITY_STATUS_NOT_SATISFIED
      · simp [h1, h2, h3]
      · simp [h1, h2, h3]

theorem isIncorrectPinSW_63Cx (x : Nat) (hx : x < 16) :
    isIncorrectPinSW (0x63C0 + x) = true := by
  interval_cases x <;> decide

theorem swRetryCount_63Cx (x : Nat) (hx : x < 16) :
    swRetryCount (0x63C0 + x) = x := by
  interval_cases x <;> decide

theorem isIncorrectPinSW_ne_ok {sw : Nat} (h : isIncorrectPinSW sw = true) :
    (sw == SW_NO_ERROR) = false := by
  by_cases hs : sw = SW_NO_ERROR
  · subst hs
    exact absurd h (by decide)
  · simp [hs]

theorem findLoop_some (pfx : List Nat) (ts : List piv_token_info)
    (t0 : piv_token_info) :
    findLoop pfx ts (some t0) =
      if ts.filter (guidMatch pfx) = [] then .ok t0 else .error .Duplicate := by
  induction ts with
  | nil => simp [findLoop]
  | cons t rest ih =>
    by_cases h : guidMatch pfx t
    · simp [findLoop, h, List.filter_cons]
    · simp [findLoop, h, List.filter_cons, ih]

theorem findLoop_none (pfx : List Nat) (ts : List piv_token_info) :
    findLoop pfx ts none =
      match ts.filter (guidMatch pfx) with
      | [] => .error .NotFound
      | [t] => .ok t
      | _ :: _ :: _ => .error .Duplicate := by
  induction ts with
  | nil => simp [findLoop]
  | cons t rest ih =>
    by_cases h : guidMatch pfx t
    · simp only [findLoop, h, if_true, List.filter_cons, findLoop_some]
      cases hf : rest.filter (guidMatch pfx) with
      | nil => simp [hf]
      | cons y ys => simp [hf]
    · simp only [findLoop, h, if_false, List.filter_cons, ih]
      simp [h]

theorem readAllLoop_ok (res : Nat → Except ErrKind Unit) (l : List Nat)
    (h : ∀ s ∈ l, certReadTolerable (res s) = true) :
    readAllLoop res l = (.ok (), l) := by
  induction l with
  | nil => simp [readAllLoop]
  | cons s rest ih =>
    have hs := h s (by simp)
    have hr : ∀ t ∈ rest, certReadTolerable (res t) = true :=
      fun t ht => h t (by simp [ht])
    simp [readAllLoop, hs, ih hr]

theorem readAllLoop_stop (res : Nat → Except ErrKind Unit) (pre : List Nat)
    (s : Nat) (post : List Nat) (k : ErrKind)
    (hpre : ∀ t ∈ pre, certReadTolerable (res t) = true)
    (hs : res s = .error k)
    (hk : certReadTolerable (.error k) = false) :
    readAllLoop res (pre ++ s :: post) = (.error k, pre ++ [s]) := by
  induction pre with
  | nil =>
    simp [readAllLoop, hs, hk]
  | cons t trest ih =>
    have ht := hpre t (by simp)
    have hr : ∀ u ∈ trest, certReadTolerable (res u) = true :=
      fun u hu => hpre u (by simp [hu])
    simp [readAllLoop, ht, ih hr]

theorem piv_get_slot_map_alg (slots : List piv_slot) (id alg id2 : Nat) :
    (piv_get_slot (slots.map
      (fun s => if s.slotid == id then { s with alg := alg } else s)) id2).isSome =
    (piv_get_slot slots id2).isSome := by
  induction slots with
  | nil => simp [piv_get_slot]
  | cons s rest ih =>
    simp only [List.map_cons, piv_get_slot]
    by_cases h2 : s.slotid = id2
    · have hm : (if s.slotid = id then { s with alg := alg } else s).slotid = id2 := by
        by_cases h1 : s.slotid = id
        · rw [if_pos h1]
          exact h2
        · rw [if_neg h1]
          exact h2
      rw [List.find?_cons_of_pos _ (by simp [hm]),
        List.find?_cons_of_pos _ (by simp [h2])]
      simp
    · have hm : (if s.slotid = id then { s with alg := alg } else s).slotid ≠ id2 := by
        by_cases h1 : s.slotid = id
        · rw [if_pos h1]
          exact h2
        · rw [if_neg h1]
          exact h2
      rw [List.find?_cons_of_neg _ (by simp [hm]),
        List.find?_cons_of_neg _ (by simp [h2])]
      exact ih

theorem piv_get_slot_upsert (slots : List piv_slot) (id alg id2 : Nat) :
    (piv_get_slot (upsertSlot slots id alg) id2).isSome =
      ((id == id2) || (piv_get_slot slots id2).isSome) := by
  unfold upsertSlot
  by_cases hex : (piv_get_slot slots id).isSome
  · rw [if_pos hex, piv_get_slot_map_alg]
    by_cases he : id = id2
    · subst he
      simp [hex]
    · simp [he]
  · rw [if_neg hex]
    by_cases he : id = id2
    · subst he
      simp [piv_get_slot, List.find?_cons]
    · simp [piv_get_slot, List.find?_cons, Ne.symm he, he]

theorem runSlotEvents_foldl (evs : List SlotEvent) (st : List piv_slot)
    (id : Nat) :
    (piv_get_slot (evs.foldl applySlotEvent st) id).isSome =
      ((piv_get_slot st id).isSome || evs.any (eventAdds id)) := by
  induction evs generalizing st with
  | nil => simp
  | cons e rest ih =>
    rw [List.foldl_cons, ih, List.any_cons]
    cases e with
    | readCertOk i a =>
      simp only [applySlotEvent, eventAdds, piv_get_slot_upsert]
      rw [Bool.or_comm (i == id), Bool.or_assoc]
    | readCertFail i => simp [applySlotEvent, eventAdds]
    | forceSlot i a =>
      simp only [applySlotEvent, eventAdds, piv_get_slot_upsert]
      rw [Bool.or_comm (i == id), Bool.or_assoc]

theorem piv_verify_pin_sent_cases (ty : Nat) (pin : List Nat)
    (retries : Option Nat) (canskip : Bool) (card : VerifyCard)
    (hlen : ¬(pin.length = 0 ∨ pin.length > 8)) :
    (piv_verify_pin ty pin retries canskip card).sent = [verifyApdu ty []] ∨
    (piv_verify_pin ty pin retries canskip card).sent =
      [verifyApdu ty [], verifyApdu ty (pin ++ List.replicate (8 - pin.length) 0xFF)] ∨
    (piv_verify_pin ty pin retries canskip card).sent =
      [verifyApdu ty (pin ++ List.replicate (8 - pin.length) 0xFF)] := by
  unfold piv_verify_pin
  rw [if_neg hlen]
  by_cases hc1 : (canskip || retries.isSome) = true
  · rw [if_pos hc1]
    by_cases hc2 : (canskip && (card.probeSW == SW_NO_ERROR)) = true
    · rw [if_pos hc2]
      left
      rfl
    · rw [if_neg hc2]
      clear hc1
      by_cases hc3 : (isIncorrectPinSW card.probeSW &&
          (match retries with
           | some r => decide (swRetryCount card.probeSW < r)
           | none => false)) = true
      · rw [if_pos hc3]
        left
        rfl
      · rw [if_neg hc3, verifySendPin_sent]
        right
        left
        rfl
  · rw [if_neg hc1, verifySendPin_sent]
    right
    right
    simp

theorem piv_verify_pin_data_sent (ty : Nat) (pin : List Nat)
    (retries : Option Nat) (canskip : Bool) (card : VerifyCard)
    (hsent : ∃ a ∈ (piv_verify_pin ty pin retries canskip card).sent,
        a.cmd ≠ []) :
    ∃ probes, piv_verify_pin ty pin retries canskip card =
      verifySendPin ty pin retries card probes := by
  unfold piv_verify_pin at hsent ⊢
  by_cases hbad : pin.length = 0 ∨ pin.length > 8
  · rw [if_pos hbad] at hsent
    simp at hsent
  · rw [if_neg hbad] at hsent ⊢
    cases retries with
    | none =>
      by_cases hcs : (canskip || (none : Option Nat).isSome) = true
      · rw [if_pos hcs] at hsent ⊢
        by_cases hc2 : (canskip && (card.probeSW == SW_NO_ERROR)) = true
        · rw [if_pos hc2] at hsent
          simp [verifyApdu, piv_apdu_set_cmd, piv_apdu_make] at hsent
        · rw [if_neg hc2] at hsent ⊢
          rw [if_neg (by simp)]
          exact ⟨_, rfl⟩
      · rw [if_neg hcs]
        exact ⟨_, rfl⟩
    | some r =>
      rw [if_pos (by simp)] at hsent ⊢
      by_cases hc2 : (canskip && (card.probeSW == SW_NO_ERROR)) = true
      · rw [if_pos hc2] at hsent
        simp [verifyApdu, piv_apdu_set_cmd, piv_apdu_make] at hsent
      · rw [if_neg hc2] at hsent ⊢
        by_cases hc3 : (isIncorrectPinSW card.probeSW &&
            (match (some r : Option Nat) with
             | some rr => decide (swRetryCount card.probeSW < rr)
             | none => false)) = true
        · rw [if_pos hc3] at hsent
          simp [verifyApdu, piv_apdu_set_cmd, piv_apdu_make] at hsent
        · rw [if_neg hc3]
          exact ⟨_, rfl⟩

/-! ## Claims -/

/-- C2: Command chaining: for every command APDU whose command data has
length L with 255 < L ≤ 2^16, sent in short-APDU mode, the chained
transceive splits the data into fragments of at most 255 bytes such
that every fragment except the last carries class 0x10, the last
fragment carries class 0x00, and the concatenation of all fragments'
data fields equals the original L bytes, with the original
instruction, P1 and P2 on each fragment. -/
theorem claim_C2_command_chaining (ins p1 p2 : Nat) (d : List Nat)
    (h1 : 255 < d.length) (h2 : d.length ≤ 65536) :
    (∀ a ∈ chainFragments ins p1 p2 d,
        a.cmd.length ≤ 255 ∧ a.ins = ins ∧ a.p1 = p1 ∧ a.p2 = p2) ∧
    (∀ k, k < (chainFragments ins p1 p2 d).length →
        ((chainFragments ins p1 p2 d).getD k (piv_apdu_make 0 0 0 0)).cls =
          if k + 1 = (chainFragments ins p1 p2 d).length then CLA_ISO
          else CLA_CHAIN) ∧
    ((chainFragments ins p1 p2 d).map (fun a => a.cmd)).flatten = d :=
  ⟨fun a ha => chainFragments_mem ins p1 p2 d a ha,
   fun k hk => chainFragments_cls ins p1 p2 d k hk,
   chainFragments_flatten ins p1 p2 d⟩

/-- Witness for C2 at a concrete 256-byte command data. -/
theorem claim_C2_command_chaining_witness :
    255 < (List.replicate 256 (7 : Nat)).length ∧
    (List.replicate 256 (7 : Nat)).length ≤ 65536 ∧
    ((∀ a ∈ chainFragments 0xDB 0x3F 0xFF (List.replicate 256 7),
        a.cmd.length ≤ 255 ∧ a.ins = 0xDB ∧ a.p1 = 0x3F ∧ a.p2 = 0xFF) ∧
    (∀ k, k < (chainFragments 0xDB 0x3F 0xFF (List.replicate 256 7)).length →
        ((chainFragments 0xDB 0x3F 0xFF (List.replicate 256 7)).getD k
            (piv_apdu_make 0 0 0 0)).cls =
          if k + 1 = (chainFragments 0xDB 0x3F 0xFF (List.replicate 256 7)).length
          then CLA_ISO else CLA_CHAIN) ∧
    ((chainFragments 0xDB 0x3F 0xFF (List.replicate 256 7)).map
        (fun a => a.cmd)).flatten = List.replicate 256 7) :=
  ⟨by simp only [List.length_replicate]; decide,
   by simp only [List.length_replicate]; decide,
   claim_C2_command_chaining 0xDB 0x3F 0xFF (List.replicate 256 7)
     (by simp only [List.length_replicate]; decide)
     (by simp only [List.length_replicate]; decide)⟩

/-- C3: PIN padding and length check: for every PIN string s with
1 ≤ |s| ≤ 8, piv_verify_pin builds a VERIFY command payload equal to s
followed by (8 - |s|) bytes of 0xFF; for every PIN string with |s| = 0
or |s| > 8, piv_verify_pin returns an Argument error before
transmitting any APDU. -/
theorem claim_C3_pin_padding (ty : Nat) (pin bad : List Nat)
    (retries retriesB : Option Nat) (canskip canskipB : Bool)
    (card cardB : VerifyCard)
    (h1 : 1 ≤ pin.length) (h2 : pin.length ≤ 8)
    (hbad : bad.length = 0 ∨ bad.length > 8) :
    (∀ a ∈ (piv_verify_pin ty pin retries canskip card).sent,
        a.cmd ≠ [] → a.cmd = pin ++ List.replicate (8 - pin.length) 0xFF) ∧
    (piv_verify_pin ty bad retriesB canskipB cardB).result = .error .Argument ∧
    (piv_verify_pin ty bad retriesB canskipB cardB).sent = [] := by
  refine ⟨?_, ?_, ?_⟩
  · intro a ha hcmd
    rcases piv_verify_pin_sent_cases ty pin retries canskip card (by omega)
      with h | h | h <;> rw [h] at ha <;> simp at ha
    · exact absurd (ha ▸ rfl) hcmd
    · cases ha with
      | inl ha => exact absurd (ha ▸ rfl) hcmd
      | inr ha =>
        rw [ha]
        rfl
    · rw [ha]
      rfl
  · unfold piv_verify_pin
    rw [if_pos hbad]
  · unfold piv_verify_pin
    rw [if_pos hbad]

/-- Witness for C3 at the PIN "1234" and the empty PIN. -/
theorem claim_C3_pin_padding_witness :
    1 ≤ ([0x31, 0x32, 0x33, 0x34] : List Nat).length ∧
    ([0x31, 0x32, 0x33, 0x34] : List Nat).length ≤ 8 ∧
    (([] : List Nat).length = 0 ∨ ([] : List Nat).length > 8) ∧
    ((∀ a ∈ (piv_verify_pin 0x80 [0x31, 0x32, 0x33, 0x34] (some 3) false
          ⟨0x63C5, 0x9000⟩).sent,
        a.cmd ≠ [] →
          a.cmd = [0x31, 0x32, 0x33, 0x34] ++ List.replicate (8 - 4) 0xFF) ∧
    (piv_verify_pin 0x80 [] none false ⟨0x63C5, 0x9000⟩).result =
        .error .Argument ∧
    (piv_verify_pin 0x80 [] none false ⟨0x63C5, 0x9000⟩).sent = []) :=
  ⟨by decide, by decide, by decide,
   claim_C3_pin_padding 0x80 [0x31, 0x32, 0x33, 0x34] [] (some 3) none
     false false ⟨0x63C5, 0x9000⟩ ⟨0x63C5, 0x9000⟩
     (by decide) (by decide) (by decide)⟩

/-- C4: Wrong-PIN reporting: whenever the card answers a VERIFY with
status word 0x63Cx, piv_verify_pin returns a Permission error and, if
the caller's retries pointer is non-NULL, writes the low nibble x of
the status word into it as the remaining attempt count; status 0x9000
is returned as success.  The hypotheses require only that the call
actually transmitted the data-carrying VERIFY the card answered; the
retries pointer and canskip flag are arbitrary, and the nibble write
is concluded for every non-NULL retries pointer. -/
theorem claim_C4_wrong_pin (ty : Nat) (pin : List Nat) (x : Nat)
    (retries retriesB : Option Nat) (canskip canskipB : Bool)
    (cardA cardB : VerifyCard)
    (hx : x < 16) (hA : cardA.pinSW = 0x63C0 + x)
    (hB : cardB.pinSW = SW_NO_ERROR)
    (hsentA : ∃ a ∈ (piv_verify_pin ty pin retries canskip cardA).sent,
        a.cmd ≠ [])
    (hsentB : ∃ a ∈ (piv_verify_pin ty pin retriesB canskipB cardB).sent,
        a.cmd ≠ []) :
    (piv_verify_pin ty pin retries canskip cardA).result = .error .Permission ∧
    (∀ r, retries = some r →
        (piv_verify_pin ty pin retries canskip cardA).retriesOut = some x) ∧
    (piv_verify_pin ty pin retriesB canskipB cardB).result = .ok () := by
  obtain ⟨probesA, hqA⟩ :=
    piv_verify_pin_data_sent ty pin retries canskip cardA hsentA
  obtain ⟨probesB, hqB⟩ :=
    piv_verify_pin_data_sent ty pin retriesB canskipB cardB hsentB
  rw [hqA, hqB]
  have hswA : ¬(cardA.pinSW = SW_NO_ERROR) := by
    rw [hA]
    simp [SW_NO_ERROR]
    omega
  refine ⟨?_, ?_, ?_⟩
  · unfold verifySendPin
    rw [if_neg hswA, if_pos (by rw [hA]; exact isIncorrectPinSW_63Cx x hx)]
  · intro r hr
    subst hr
    unfold verifySendPin
    rw [if_neg hswA, if_pos (by rw [hA]; exact isIncorrectPinSW_63Cx x hx)]
    dsimp only
    rw [hA, swRetryCount_63Cx x hx]
  · unfold verifySendPin
    rw [hB]
    simp

/-- Witness for C4 at status words 0x63C2 (with a non-NULL retries
pointer holding 3) and 0x9000 (with a NULL retries pointer). -/
theorem claim_C4_wrong_pin_witness :
    2 < 16 ∧
    (⟨0x63C3, 0x63C2⟩ : VerifyCard).pinSW = 0x63C0 + 2 ∧
    (⟨0x9000, 0x9000⟩ : VerifyCard).pinSW = SW_NO_ERROR ∧
    (∃ a ∈ (piv_verify_pin 0x80 [0x31, 0x32] (some 3) false
        ⟨0x63C3, 0x63C2⟩).sent, a.cmd ≠ []) ∧
    (∃ a ∈ (piv_verify_pin 0x80 [0x31, 0x32] none false
        ⟨0x9000, 0x9000⟩).sent, a.cmd ≠ []) ∧
    ((piv_verify_pin 0x80 [0x31, 0x32] (some 3) false ⟨0x63C3, 0x63C2⟩).result =
        .error .Permission ∧
    (∀ r, (some 3 : Option Nat) = some r →
        (piv_verify_pin 0x80 [0x31, 0x32] (some 3) false
          ⟨0x63C3, 0x63C2⟩).retriesOut = some 2) ∧
    (piv_verify_pin 0x80 [0x31, 0x32] none false ⟨0x9000, 0x9000⟩).result =
        .ok ()) :=
  ⟨by decide, by decide, by decide, by decide, by decide,
   claim_C4_wrong_pin 0x80 [0x31, 0x32] 2 (some 3) none false false
     ⟨0x63C3, 0x63C2⟩ ⟨0x9000, 0x9000⟩ (by decide) (by decide) (by decide)
     (by decide) (by decide)⟩

/-- C7: Retry floor: for every call to piv_verify_pin with a non-NULL
retries argument holding value r, if the card's current remaining
retry count (probed via VERIFY with empty data) is strictly below r,
piv_verify_pin returns a MinRetries error without sending the VERIFY
command that would consume an attempt. -/
theorem claim_C7_retry_floor (ty : Nat) (pin : List Nat) (r : Nat)
    (canskip : Bool) (card : VerifyCard)
    (h1 : 1 ≤ pin.length) (h2 : pin.length ≤ 8)
    (hprobe : isIncorrectPinSW card.probeSW = true)
    (hlow : swRetryCount card.probeSW < r) :
    (piv_verify_pin ty pin (some r) canskip card).result = .error .MinRetries ∧
    (piv_verify_pin ty pin (some r) canskip card).sent = [verifyApdu ty []] := by
  have heval : piv_verify_pin ty pin (some r) canskip card =
      ⟨.error .MinRetries, [verifyApdu ty []], none⟩ := by
    unfold piv_verify_pin
    rw [if_neg (by omega)]
    have hsk : ¬(canskip && (card.probeSW == SW_NO_ERROR)) = true := by
      rw [isIncorrectPinSW_ne_ok hprobe]
      simp
    have hcond : (isIncorrectPinSW card.probeSW &&
        (match (some r : Option Nat) with
         | some rr => decide (swRetryCount card.probeSW < rr)
         | none => false)) = true := by
      rw [Bool.and_eq_true]
      refine ⟨hprobe, ?_⟩
      dsimp only
      exact decide_eq_true hlow
    rw [if_pos (by simp), if_neg hsk, if_pos hcond]
  rw [heval]
  exact ⟨rfl, rfl⟩

/-- Witness for C7 at probe status 0x63C1 and floor 3. -/
theorem claim_C7_retry_floor_witness :
    1 ≤ ([0x31] : List Nat).length ∧ ([0x31] : List Nat).length ≤ 8 ∧
    isIncorrectPinSW (⟨0x63C1, 0x9000⟩ : VerifyCard).probeSW = true ∧
    swRetryCount (⟨0x63C1, 0x9000⟩ : VerifyCard).probeSW < 3 ∧
    ((piv_verify_pin 0x80 [0x31] (some 3) false ⟨0x63C1, 0x9000⟩).result =
        .error .MinRetries ∧
    (piv_verify_pin 0x80 [0x31] (some 3) false ⟨0x63C1, 0x9000⟩).sent =
        [verifyApdu 0x80 []]) :=
  ⟨by decide, by decide, by decide, by decide,
   claim_C7_retry_floor 0x80 [0x31] 3 false ⟨0x63C1, 0x9000⟩
     (by decide) (by decide) (by decide) (by decide)⟩

/-- C5: GUID prefix search: for every GUID prefix, piv_find returns the
unique token whose GUID begins with that prefix when exactly one
reachable token matches; returns a Duplicate error when more than one
token matches; and returns a NotFound error when no token matches. -/
theorem claim_C5_guid_find (tsU tsD tsN : List piv_token_info)
    (pU pD pN : List Nat) (t : piv_token_info)
    (hU : tsU.filter (guidMatch pU) = [t])
    (hD : 2 ≤ (tsD.filter (guidMatch pD)).length)
    (hN : tsN.filter (guidMatch pN) = []) :
    piv_find tsU pU = .ok t ∧
    piv_find tsD pD = .error .Duplicate ∧
    piv_find tsN pN = .error .NotFound := by
  refine ⟨?_, ?_, ?_⟩
  · rw [piv_find, findLoop_none, hU]
  · rw [piv_find, findLoop_none]
    cases hf : tsD.filter (guidMatch pD) with
    | nil => rw [hf] at hD; simp at hD
    | cons a rest =>
      cases rest with
      | nil => rw [hf] at hD; simp at hD
      | cons b rest2 => rfl
  · rw [piv_find, findLoop_none, hN]

/-- Witness for C5 on three concrete reader lists. -/
theorem claim_C5_guid_find_witness :
    ([⟨[0], [1, 2]⟩, ⟨[1], [3, 4]⟩] : List piv_token_info).filter
        (guidMatch [1]) = [⟨[0], [1, 2]⟩] ∧
    2 ≤ (([⟨[0], [5, 2]⟩, ⟨[1], [5, 4]⟩] : List piv_token_info).filter
        (guidMatch [5])).length ∧
    ([⟨[0], [1, 2]⟩] : List piv_token_info).filter (guidMatch [9]) = [] ∧
    (piv_find [⟨[0], [1, 2]⟩, ⟨[1], [3, 4]⟩] [1] = .ok ⟨[0], [1, 2]⟩ ∧
    piv_find [⟨[0], [5, 2]⟩, ⟨[1], [5, 4]⟩] [5] = .error .Duplicate ∧
    piv_find [⟨[0], [1, 2]⟩] [9] = .error .NotFound) :=
  ⟨by decide, by decide, by decide,
   claim_C5_guid_find [⟨[0], [1, 2]⟩, ⟨[1], [3, 4]⟩]
     [⟨[0], [5, 2]⟩, ⟨[1], [5, 4]⟩] [⟨[0], [1, 2]⟩] [1] [5] [9] ⟨[0], [1, 2]⟩
     (by decide) (by decide) (by decide)⟩

/-- C8: Per-slot fault tolerance of bulk cert read: piv_read_all_certs
iterates the fixed slot enumeration in order, continues past any slot
whose read fails with NotFound or NotSupported, and returns early with
the error (possibly without trying the remaining slots) for any other
error kind. -/
theorem claim_C8_read_all_certs (resA resB : Nat → Except ErrKind Unit)
    (pre : List Nat) (s : Nat) (post : List Nat) (k : ErrKind)
    (hA : ∀ t ∈ slotEnum, certReadTolerable (resA t) = true)
    (hsplit : slotEnum = pre ++ s :: post)
    (hpre : ∀ t ∈ pre, certReadTolerable (resB t) = true)
    (hs : resB s = .error k)
    (hk : certReadTolerable (.error k) = false) :
    piv_read_all_certs resA = (.ok (), slotEnum) ∧
    piv_read_all_certs resB = (.error k, pre ++ [s]) := by
  constructor
  · exact readAllLoop_ok resA slotEnum hA
  · rw [piv_read_all_certs, hsplit]
    exact readAllLoop_stop resB pre s post k hpre hs hk

/-- Witness for C8: one card where every slot read is tolerable, one
card where slot 9C fails with a Permission error. -/
theorem claim_C8_read_all_certs_witness :
    (∀ t ∈ slotEnum, certReadTolerable
        ((fun _ => (.error .NotFound : Except ErrKind Unit)) t) = true) ∧
    slotEnum = [0x9A] ++ 0x9C ::
        ([0x9D, 0x9E] ++ (List.range 20).map (fun k => 0x82 + k)) ∧
    (∀ t ∈ ([0x9A] : List Nat), certReadTolerable
        ((fun sl => if sl = 0x9C then (.error .Permission : Except ErrKind Unit)
          else .ok ()) t) = true) ∧
    (fun sl => if sl = 0x9C then (.error .Permission : Except ErrKind Unit)
      else .ok ()) 0x9C = .error .Permission ∧
    certReadTolerable (.error .Permission) = false ∧
    (piv_read_all_certs (fun _ => (.error .NotFound : Except ErrKind Unit)) =
        (.ok (), slotEnum) ∧
    piv_read_all_certs (fun sl => if sl = 0x9C then
        (.error .Permission : Except ErrKind Unit) else .ok ()) =
      (.error .Permission, [0x9A] ++ [0x9C])) :=
  ⟨by decide, by decide, by decide, by decide, by decide,
   claim_C8_read_all_certs (fun _ => .error .NotFound)
     (fun sl => if sl = 0x9C then .error .Permission else .ok ())
     [0x9A] 0x9C ([0x9D, 0x9E] ++ (List.range 20).map (fun k => 0x82 + k))
     .Permission (by decide) (by decide) (by decide) (by decide) (by decide)⟩

/-- C9: Slot registry lookup: for every token and slot id, piv_get_slot
returns a non-NULL slot reference if and only if that slot was
previously added to the token, either by a successful piv_read_cert
for that slot id or by piv_force_slot; otherwise it returns NULL. -/
theorem claim_C9_slot_registry (evs : List SlotEvent) (id : Nat) :
    (piv_get_slot (runSlotEvents evs) id).isSome = true ↔
      ∃ e ∈ evs, eventAdds id e = true := by
  rw [runSlotEvents, runSlotEvents_foldl]
  simp [piv_get_slot, List.any_eq_true]

/-- C10: Status word of an incomplete APDU: for every APDU that has not
yet been completed by a transceive, piv_apdu_sw returns 0; after a
successful transceive it returns the 16-bit status word recorded from
the card's reply. -/
theorem claim_C10_apdu_sw (cls ins p1 p2 : Nat) (a : apdu) (dat : List Nat)
    (s1 s2 : Nat) (hs1 : s1 < 256) (hs2 : s2 < 256) :
    piv_apdu_sw (piv_apdu_make cls ins p1 p2) = 0 ∧
    ∃ a2, piv_apdu_transceive a (dat ++ [s1, s2]) = .ok a2 ∧
      piv_apdu_sw a2 = 256 * s1 + s2 ∧ piv_apdu_sw a2 < 65536 ∧
      a2.reply = dat := by
  have hidx : (dat ++ [s1, s2]).length - 2 = dat.length := by simp
  have hidx1 : (dat ++ [s1, s2]).length - 1 = dat.length + 1 := by
    simp
  have hg1 : (dat ++ [s1, s2]).getD ((dat ++ [s1, s2]).length - 2) 0 = s1 := by
    rw [hidx, List.getD_append_right _ _ _ _ (le_refl _)]
    simp
  have hg2 : (dat ++ [s1, s2]).getD ((dat ++ [s1, s2]).length - 1) 0 = s2 := by
    rw [hidx1, List.getD_append_right _ _ _ _ (by omega)]
    simp
  have ht : (dat ++ [s1, s2]).take ((dat ++ [s1, s2]).length - 2) = dat := by
    rw [hidx]
    exact List.take_left dat [s1, s2]
  constructor
  · rfl
  · refine ⟨{ a with
        reply := (dat ++ [s1, s2]).take ((dat ++ [s1, s2]).length - 2),
        sw := 256 * (dat ++ [s1, s2]).getD ((dat ++ [s1, s2]).length - 2) 0 +
          (dat ++ [s1, s2]).getD ((dat ++ [s1, s2]).length - 1) 0 },
      ?_, ?_, ?_, ?_⟩
    · unfold piv_apdu_transceive
      rw [if_neg (by simp)]
    · simp only [piv_apdu_sw, hg1, hg2]
    · simp only [piv_apdu_sw, hg1, hg2]
      omega
    · simp only [ht]

/-- Witness for C10 at a concrete reply carrying status 0x9000. -/
theorem claim_C10_apdu_sw_witness :
    (0x90 : Nat) < 256 ∧ (0x00 : Nat) < 256 ∧
    (piv_apdu_sw (piv_apdu_make 0 0xA4 4 0) = 0 ∧
    ∃ a2, piv_apdu_transceive (piv_apdu_make 0 0xA4 4 0)
        ([0x61, 0x11] ++ [0x90, 0x00]) = .ok a2 ∧
      piv_apdu_sw a2 = 256 * 0x90 + 0x00 ∧ piv_apdu_sw a2 < 65536 ∧
      a2.reply = [0x61, 0x11]) :=
  ⟨by decide, by decide,
   claim_C10_apdu_sw 0 0xA4 4 0 (piv_apdu_make 0 0xA4 4 0) [0x61, 0x11]
     0x90 0x00 (by decide) (by decide)⟩

/-- C6: Box serialization exactness: for every byte string b that
piv_box_from_binary parses successfully into a box, serializing that
box back with piv_box_to_binary yields exactly b. -/
theorem claim_C6_box_serialization_exact (l : List Nat) (b : piv_ecdh_box)
    (h : piv_box_from_binary l = .ok b) : piv_box_to_binary b = l := by
  unfold piv_box_from_binary at h
  cases hp : parseBox l with
  | none => rw [hp] at h; simp at h
  | some pr =>
    obtain ⟨b0, rest⟩ := pr
    rw [hp] at h
    cases rest with
    | nil =>
      simp only [Except.ok.injEq] at h
      subst h
      have hl := (parseBox_eq hp).1
      rw [hl]
      simp
    | cons x t => simp at h

/-- Witness for C6 at a concrete 34-byte serialized box. -/
theorem claim_C6_box_serialization_exact_witness :
    piv_box_from_binary
        [176, 197, 3, 0, 0, 0, 0, 1, 99, 0, 0, 0, 1, 107, 0, 0, 0, 1, 1,
         0, 0, 0, 1, 2, 0, 0, 0, 1, 3, 0, 0, 0, 1, 4] =
      .ok ⟨3, none, [99], [107], [1], [2], [3], [4], none⟩ ∧
    piv_box_to_binary ⟨3, none, [99], [107], [1], [2], [3], [4], none⟩ =
      [176, 197, 3, 0, 0, 0, 0, 1, 99, 0, 0, 0, 1, 107, 0, 0, 0, 1, 1,
       0, 0, 0, 1, 2, 0, 0, 0, 1, 3, 0, 0, 0, 1, 4] :=
  ⟨by decide,
   claim_C6_box_serialization_exact
     [176, 197, 3, 0, 0, 0, 0, 1, 99, 0, 0, 0, 1, 107, 0, 0, 0, 1, 1,
      0, 0, 0, 1, 2, 0, 0, 0, 1, 3, 0, 0, 0, 1, 4]
     ⟨3, none, [99], [107], [1], [2], [3], [4], none⟩ (by decide)⟩

/-! ## Machinery for the box round-trip and bit-flip claim -/

/-- A fresh box carrying plaintext `p`, cipher `cname` and binding `gs`,
as a caller prepares it before sealing. -/
def boxForSeal (cname : List Nat) (gs : Option (List Nat × Nat))
    (p : List Nat) : piv_ecdh_box :=
  { piv_box_new with cipher := cname, guidslot := gs, plaintext := some p }

/-- The box a successful seal produced (used to state properties of the
sealed box; falls back to the input when sealing fails). -/
def sealOrSelf (ephPriv : Nat) (w : List Nat) (b : piv_ecdh_box) :
    piv_ecdh_box :=
  match piv_box_seal_offline ephPriv w b with
  | .ok r => r
  | .error _ => b

/-- The bytes of the serialization that precede the ciphertext field. -/
def boxPre (b : piv_ecdh_box) : List Nat :=
  [0xB0, 0xC5] ++ [b.version] ++ [boxFlags b] ++ putGuidSlot b.guidslot ++
    putSshString b.cipher ++ putSshString b.kdf ++ putSshString b.pub ++
    putSshString b.ephem ++ putSshString b.nonce ++ putU32 b.enc.length

theorem to_binary_split (b : piv_ecdh_box) :
    piv_box_to_binary b = boxPre b ++ b.enc := by
  simp [piv_box_to_binary, boxPre, putSshString, List.append_assoc]

theorem boxPre_enc_irrel (b : piv_ecdh_box) (e2 : List Nat)
    (hlen : e2.length = b.enc.length) :
    boxPre { b with enc := e2 } = boxPre b := by
  simp [boxPre, boxFlags, hlen]

theorem seal_offline_eval (ephPriv : Nat) (pubw : List Nat) (cname : List Nat)
    (gs : Option (List Nat × Nat)) (p : List Nat)
    (hsupp : supportedCipher cname = true) :
    piv_box_seal_offline ephPriv pubw (boxForSeal cname gs p) =
      .ok { version := 3, guidslot := gs, cipher := cname, kdf := kdfSha512,
            pub := pubw, ephem := pubKeyWire ephPriv,
            nonce := natToBytesFixed 12 (ecdhCompute ephPriv pubw + 1),
            enc := aeadEncrypt cname (ecdhCompute ephPriv pubw)
              (ecdhCompute ephPriv pubw + 1) p,
            plaintext := none } := by
  unfold piv_box_seal_offline boxForSeal piv_box_new
  dsimp only
  rw [if_neg (by simp [hsupp]), if_neg (by simp)]
  rfl

theorem from_binary_to_binary (b : piv_ecdh_box) (hwf : boxWF b)
    (hpt : b.plaintext = none) :
    piv_box_from_binary (piv_box_to_binary b) = .ok b := by
  unfold piv_box_from_binary
  have hput := parseBox_put b [] hwf
  rw [List.append_nil] at hput
  rw [hput]
  have hb : ({ b with plaintext := none } : piv_ecdh_box) = b := by
    cases b
    simp only at hpt
    rw [hpt]
  rw [hb]

/-- The box produced by a successful offline seal: recipient and
ephemeral public keys, KDF-derived nonce, AEAD ciphertext, plaintext
cleared. -/
def sealedBoxOf (d e : Nat) (cname : List Nat) (gs : Option (List Nat × Nat))
    (p : List Nat) : piv_ecdh_box :=
  { version := 3, guidslot := gs, cipher := cname, kdf := kdfSha512,
    pub := pubKeyWire d, ephem := pubKeyWire e,
    nonce := natToBytesFixed 12 (e * d + 1),
    enc := aeadEncrypt cname (e * d) (e * d + 1) p,
    plaintext := none }

/-- C1 (amended): ECDH box round-trip: for every recipient key pair,
plaintext p and cipher in {chacha20-poly1305, aes256-gcm}, sealing a
box holding p with piv_box_seal_offline under the recipient public key
and then opening it with piv_box_open_offline under the recipient
private key yields exactly p byte-for-byte from piv_box_take_data; and
flipping any single bit of the ciphertext field of the serialized box
still parses but causes open to fail with an InvalidData error.
(Amendment: the failure guarantee is restricted to bits of the
ciphertext field; open_offline does not consult the guid/slot binding
or the stored recipient public key, so flips there can leave open
succeeding — see the counterexample.) -/
theorem claim_C1_box_roundtrip (d e : Nat) (p cname : List Nat)
    (gs : Option (List Nat × Nat)) (i : Nat)
    (hc : cname = cipherChacha ∨ cname = cipherAes256Gcm)
    (hgs : match gs with
           | some (g, sl) => g.length = 16 ∧ sl < 256
           | none => True)
    (hd : d < 4294967296) (he : e < 4294967296)
    (hplen : p.length + 1 < 4294967296)
    (hi1 : 8 * ((piv_box_to_binary (sealOrSelf e (pubKeyWire d)
        (boxForSeal cname gs p))).length - (p.length + 1)) ≤ i)
    (hi2 : i < 8 * (piv_box_to_binary (sealOrSelf e (pubKeyWire d)
        (boxForSeal cname gs p))).length) :
    (∃ sb ob,
      piv_box_seal_offline e (pubKeyWire d) (boxForSeal cname gs p) = .ok sb ∧
      piv_box_open_offline d sb = .ok ob ∧
      piv_box_take_data ob = .ok p) ∧
    (∃ b2,
      piv_box_from_binary (flipBit i (piv_box_to_binary
        (sealOrSelf e (pubKeyWire d) (boxForSeal cname gs p)))) = .ok b2 ∧
      piv_box_open_offline d b2 = .error .InvalidData) := by
  have hsupp : supportedCipher cname = true := by
    rcases hc with h | h <;> rw [h] <;> decide
  have hshared : ecdhCompute e (pubKeyWire d) = e * d := by
    simp [ecdhCompute, pubKeyWire, bytesToNatLE_natToBytesLE]
  have hseal2 : piv_box_seal_offline e (pubKeyWire d) (boxForSeal cname gs p) =
      .ok (sealedBoxOf d e cname gs p) := by
    rw [seal_offline_eval e (pubKeyWire d) cname gs p hsupp, hshared]
    rfl
  have hsos : sealOrSelf e (pubKeyWire d) (boxForSeal cname gs p) =
      sealedBoxOf d e cname gs p := by
    unfold sealOrSelf
    rw [hseal2]
  rw [hsos] at hi1 hi2
  have hsh2 : ecdhCompute d (pubKeyWire e) = e * d := by
    simp [ecdhCompute, pubKeyWire, bytesToNatLE_natToBytesLE, Nat.mul_comm]
  have hopen : piv_box_open_offline d (sealedBoxOf d e cname gs p) =
      .ok { sealedBoxOf d e cname gs p with plaintext := some p } := by
    unfold piv_box_open_offline sealedBoxOf
    dsimp only
    rw [if_neg (by simp [hsupp]), if_neg (by simp)]
    rw [hsh2]
    dsimp only [kdfDerive]
    rw [aeadDecrypt_encrypt]
  have hwfS : boxWF (sealedBoxOf d e cname gs p) := by
    unfold boxWF sealedBoxOf
    dsimp only
    refine ⟨by norm_num, by norm_num, hgs, ?_, by decide, ?_, ?_, ?_, ?_⟩
    · rcases hc with h | h <;> rw [h] <;> decide
    · exact lt_of_le_of_lt (natToBytesLE_length_le d) hd
    · exact lt_of_le_of_lt (natToBytesLE_length_le e) he
    · rw [natToBytesFixed_length]
      norm_num
    · simpa [aeadEncrypt] using hplen
  have henclen : (sealedBoxOf d e cname gs p).enc.length = p.length + 1 := by
    simp [sealedBoxOf, aeadEncrypt]
  have hsplit := to_binary_split (sealedBoxOf d e cname gs p)
  have hlentot : (piv_box_to_binary (sealedBoxOf d e cname gs p)).length =
      (boxPre (sealedBoxOf d e cname gs p)).length + (p.length + 1) := by
    rw [hsplit]
    simp [henclen]
  have hprelen : 8 * (boxPre (sealedBoxOf d e cname gs p)).length ≤ i := by
    omega
  have hj : i - 8 * (boxPre (sealedBoxOf d e cname gs p)).length <
      8 * (sealedBoxOf d e cname gs p).enc.length := by
    rw [henclen]
    omega
  have hflip : flipBit i (piv_box_to_binary (sealedBoxOf d e cname gs p)) =
      piv_box_to_binary { sealedBoxOf d e cname gs p with
        enc := flipBit (i - 8 * (boxPre (sealedBoxOf d e cname gs p)).length)
          (sealedBoxOf d e cname gs p).enc } := by
    rw [hsplit, flipBit_append_right _ _ _ hprelen,
      to_binary_split { sealedBoxOf d e cname gs p with
        enc := flipBit (i - 8 * (boxPre (sealedBoxOf d e cname gs p)).length)
          (sealedBoxOf d e cname gs p).enc },
      boxPre_enc_irrel _ _ (flipBit_length _ _)]
  have hwfS2 : boxWF { sealedBoxOf d e cname gs p with
      enc := flipBit (i - 8 * (boxPre (sealedBoxOf d e cname gs p)).length)
        (sealedBoxOf d e cname gs p).enc } := by
    obtain ⟨w1, w2, w3, w4, w5, w6, w7, w8, w9⟩ := hwfS
    exact ⟨w1, w2, w3, w4, w5, w6, w7, w8, by rw [flipBit_length]; exact w9⟩
  rw [hsos]
  constructor
  · exact ⟨_, _, hseal2, hopen, rfl⟩
  · refine ⟨{ sealedBoxOf d e cname gs p with
        enc := flipBit (i - 8 * (boxPre (sealedBoxOf d e cname gs p)).length)
          (sealedBoxOf d e cname gs p).enc }, ?_, ?_⟩
    · rw [hflip]
      exact from_binary_to_binary _ hwfS2 rfl
    · generalize hJ : i - 8 * (boxPre (sealedBoxOf d e cname gs p)).length = j
        at hj ⊢
      unfold piv_box_open_offline sealedBoxOf
      dsimp only
      rw [if_neg (by simp [hsupp]), if_neg (by simp)]
      rw [hsh2]
      dsimp only [kdfDerive]
      rw [aeadDecrypt_flip cname (e * d) (e * d + 1) p j hj]

/-- Counterexample to C1 as stated: the claim demands that flipping ANY
single bit of the serialization makes open fail with InvalidData.  Bit
32 lies in the first byte of the serialized guid binding, which
piv_box_open_offline never consults: the flipped serialization still
parses, differs from the original, and opening it succeeds, with
piv_box_take_data returning the original plaintext. -/
theorem claim_C1_box_bitflip_counterexample :
    ((piv_box_seal_offline 7 (pubKeyWire 5)
        (boxForSeal cipherChacha (some (List.replicate 16 170, 0x9A))
          [104, 105])).bind
      (fun sb => (piv_box_from_binary (flipBit 32 (piv_box_to_binary sb))).bind
        (fun b2 => (piv_box_open_offline 5 b2).bind piv_box_take_data)))
      = .ok [104, 105] ∧
    ((piv_box_seal_offline 7 (pubKeyWire 5)
        (boxForSeal cipherChacha (some (List.replicate 16 170, 0x9A))
          [104, 105])).map
      (fun sb => flipBit 32 (piv_box_to_binary sb) == piv_box_to_binary sb))
      = .ok false := by
  constructor
  · decide
  · decide

/-- Witness for C1 (amended) at concrete keys 5 and 7, the plaintext
"hi", the chacha20-poly1305 cipher and bit 656, the first bit of the
ciphertext field of the 85-byte serialization. -/
theorem claim_C1_box_roundtrip_witness :
    ((5 : Nat) < 4294967296) ∧ ((7 : Nat) < 4294967296) ∧
    (([104, 105] : List Nat).length + 1 < 4294967296) ∧
    8 * ((piv_box_to_binary (sealOrSelf 7 (pubKeyWire 5)
        (boxForSeal cipherChacha (some (List.replicate 16 170, 0x9A))
          [104, 105]))).length - (([104, 105] : List Nat).length + 1)) ≤ 656 ∧
    656 < 8 * (piv_box_to_binary (sealOrSelf 7 (pubKeyWire 5)
        (boxForSeal cipherChacha (some (List.replicate 16 170, 0x9A))
          [104, 105]))).length ∧
    ((∃ sb ob,
      piv_box_seal_offline 7 (pubKeyWire 5)
          (boxForSeal cipherChacha (some (List.replicate 16 170, 0x9A))
            [104, 105]) = .ok sb ∧
      piv_box_open_offline 5 sb = .ok ob ∧
      piv_box_take_data ob = .ok [104, 105]) ∧
    (∃ b2,
      piv_box_from_binary (flipBit 656 (piv_box_to_binary
        (sealOrSelf 7 (pubKeyWire 5)
          (boxForSeal cipherChacha (some (List.replicate 16 170, 0x9A))
            [104, 105])))) = .ok b2 ∧
      piv_box_open_offline 5 b2 = .error .InvalidData)) :=
  ⟨by decide, by decide, by decide, by decide, by decide,
   claim_C1_box_roundtrip 5 7 [104, 105] cipherChacha
     (some (List.replicate 16 170, 0x9A)) 656
     (Or.inl rfl) (by decide) (by decide) (by decide) (by decide)
     (by decide) (by decide)⟩

end Pivy
